import Mathlib

/-!
Verification of the QKD simulator (B92 / BB84 / E91 protocol logic).

The definitions below are a shallow embedding of the repository's Python
sources `b92.py`, `bb84.py` and `e91.py`.  Bits that travel through the
classical protocol logic are modelled exactly as the source holds them
(characters for the B92 bit strings, integers for the BB84 sequences),
Python exceptions become `Except`/`Option` results, and the calls that
Python delegates to the quantum simulator (the "Quantum Channel") become
oracle function arguments, since the spec treats that collaborator as
external.  Random draws (`random.random()`, `random.randint`) are modelled
as explicit streams of rationals / naturals, one element consumed per call.
-/

/-! ## B92 engine (`b92.py`) -/

/-- The distinct `ValueError`s that `b92.py` can raise.  Each branch of the
source raises a fixed message; the message contains the violating bit/basis
pairing but no position index, so the error is one of three constants. -/
inductive B92Error where
  /-- `"Inconsistent input: bit '1' with basis '0' in B92"` -/
  | bitOneWithBasisZero
  /-- `"Inconsistent input: bit '0' with basis '1' in B92"` -/
  | bitZeroWithBasisOne
  /-- `"Invalid Alice's basis."` (either raising site) -/
  | invalidBasis
  deriving DecidableEq, Repr

/-- Recursion underlying `encode_b92_with_alice_basis`: the source iterates
over `zip(alice_bits, alice_bases)` and for each pair either raises, leaves
the qubit alone (basis 0, state |H>), or applies a Hadamard (basis 1,
state |+>).  We record the per-position preparation instruction as a `Bool`
(`true` = the `qc.h(i)` gate was emitted). -/
def encode_b92_go : List (Char × ℕ) → Except B92Error (List Bool)
  | [] => Except.ok []
  | (bit, basis) :: rest =>
    if basis = 0 then
      if bit = '1' then Except.error B92Error.bitOneWithBasisZero
      else
        match encode_b92_go rest with
        | Except.ok r => Except.ok (false :: r)
        | Except.error e => Except.error e
    else if basis = 1 then
      if bit = '0' then Except.error B92Error.bitZeroWithBasisOne
      else
        match encode_b92_go rest with
        | Except.ok r => Except.ok (true :: r)
        | Except.error e => Except.error e
    else Except.error B92Error.invalidBasis

/-- `encode_b92_with_alice_basis(alice_bits, alice_bases)` from `b92.py`:
validates every bit/basis pair and produces the preparation instruction
list (one instruction per qubit). -/
def encode_b92_with_alice_basis (aliceBits : List Char) (aliceBases : List ℕ) :
    Except B92Error (List Bool) :=
  encode_b92_go (aliceBits.zip aliceBases)

/-- The `alice_sent_states` loop of `b92_protocol_user_input_bases_bits_bob`:
basis 0 ↦ label `'H'`, basis 1 ↦ label `'+'`, anything else raises
(uncaught, outside the `try`). -/
def alice_sent_states : List ℕ → Except B92Error (List Char)
  | [] => Except.ok []
  | b :: rest =>
    if b = 0 then
      match alice_sent_states rest with
      | Except.ok r => Except.ok ('H' :: r)
      | Except.error e => Except.error e
    else if b = 1 then
      match alice_sent_states rest with
      | Except.ok r => Except.ok ('+' :: r)
      | Except.error e => Except.error e
    else Except.error B92Error.invalidBasis

/-- The per-position conclusive test of Bob's sifting loop in
`b92_protocol_user_input_bases_bits_bob`: state `'H'`, basis 1, outcome
`'1'` gives key bit `'0'`; state `'+'`, basis 0, outcome `'1'` gives key
bit `'1'`; everything else is inconclusive. -/
def b92_key_rule (state : Char) (basis : ℕ) (result : Char) : Option Char :=
  if state = 'H' ∧ basis = 1 ∧ result = '1' then some '0'
  else if state = '+' ∧ basis = 0 ∧ result = '1' then some '1'
  else none

/-- Bob's sifting loop (`for i in range(num_bits): ...`), processing the
given index list in order and returning (received key bits, conclusive
indices).  Out-of-range reads use defaults that can never look conclusive,
mirroring that the source only runs the loop on in-range indices. -/
def b92_sift_go (states : List Char) (bases : List ℕ) (results : List Char) :
    List ℕ → List Char × List ℕ
  | [] => ([], [])
  | i :: rest =>
    let tail := b92_sift_go states bases results rest
    match b92_key_rule (states.getD i ' ') (bases.getD i 2) (results.getD i ' ') with
    | some c => (c :: tail.1, i :: tail.2)
    | none => tail

/-- Bob's sifting over positions `0, …, n-1`, as in the source's
`for i in range(num_bits)`. -/
def b92_sift (states : List Char) (bases : List ℕ) (results : List Char) (n : ℕ) :
    List Char × List ℕ :=
  b92_sift_go states bases results (List.range n)

/-- Specification-side predicate: position `i` matches one of the two
conclusive patterns of the B92 sifting rule. -/
def b92_conclusive (states : List Char) (bases : List ℕ) (results : List Char)
    (i : ℕ) : Bool :=
  decide ((states.getD i ' ' = 'H' ∧ bases.getD i 2 = 1 ∧ results.getD i ' ' = '1') ∨
    (states.getD i ' ' = '+' ∧ bases.getD i 2 = 0 ∧ results.getD i ' ' = '1'))

/-- Specification-side key-bit map: the conclusive pattern with sent state
`'H'` yields receiver key bit `'0'`, the one with sent state `'+'` yields
`'1'`. -/
def b92_keybit (states : List Char) (i : ℕ) : Char :=
  if states.getD i ' ' = 'H' then '0' else '1'

theorem b92_sift_go_eq (states : List Char) (bases : List ℕ) (results : List Char)
    (l : List ℕ) :
    b92_sift_go states bases results l =
      ((l.filter (b92_conclusive states bases results)).map (b92_keybit states),
       l.filter (b92_conclusive states bases results)) := by
  induction l with
  | nil => rfl
  | cons i rest ih =>
    by_cases h1 : states.getD i ' ' = 'H' ∧ bases.getD i 2 = 1 ∧ results.getD i ' ' = '1'
    · have hr : b92_key_rule (states.getD i ' ') (bases.getD i 2) (results.getD i ' ') =
          some '0' := by rw [b92_key_rule, if_pos h1]
      have hc : b92_conclusive states bases results i = true := by
        rw [b92_conclusive, decide_eq_true_eq]; exact Or.inl h1
      have hk : b92_keybit states i = '0' := by rw [b92_keybit, if_pos h1.1]
      simp only [b92_sift_go, hr, ih, List.filter_cons, hc, if_true, List.map_cons, hk]
    · by_cases h2 : states.getD i ' ' = '+' ∧ bases.getD i 2 = 0 ∧ results.getD i ' ' = '1'
      · have hH : ¬ states.getD i ' ' = 'H' := by
          intro h; rw [h] at h2; exact absurd h2.1 (by decide)
        have hr : b92_key_rule (states.getD i ' ') (bases.getD i 2) (results.getD i ' ') =
            some '1' := by rw [b92_key_rule, if_neg h1, if_pos h2]
        have hc : b92_conclusive states bases results i = true := by
          rw [b92_conclusive, decide_eq_true_eq]; exact Or.inr h2
        have hk : b92_keybit states i = '1' := by rw [b92_keybit, if_neg hH]
        simp only [b92_sift_go, hr, ih, List.filter_cons, hc, if_true, List.map_cons, hk]
      · have hr : b92_key_rule (states.getD i ' ') (bases.getD i 2) (results.getD i ' ') =
            none := by rw [b92_key_rule, if_neg h1, if_neg h2]
        have hc : b92_conclusive states bases results i = false := by
          rw [b92_conclusive, decide_eq_false_iff_not]
          rintro (h | h)
          · exact h1 h
          · exact h2 h
        simp only [b92_sift_go, hr, ih, List.filter_cons, hc, if_false, Bool.false_eq_true]

/-- **C1.** B92 sifting: the conclusive-index list is exactly the list of
positions, in increasing order, matching one of the two conclusive
patterns ((state `'H'`, basis 1, outcome `'1'`) or (state `'+'`, basis 0,
outcome `'1'`)), and the receiver's key bits are obtained from those
positions by the pattern table (`'H'` pattern ↦ `'0'`, `'+'` pattern ↦
`'1'`); every other combination is discarded. -/
theorem b92_sift_conclusive_characterization (states : List Char) (bases : List ℕ)
    (results : List Char) (n : ℕ) :
    (b92_sift states bases results n).2 =
      (List.range n).filter (b92_conclusive states bases results) ∧
    (b92_sift states bases results n).1 =
      ((b92_sift states bases results n).2).map (b92_keybit states) := by
  rw [b92_sift, b92_sift_go_eq]
  exact ⟨rfl, rfl⟩

/-- State label sent for each of Alice's bases (the `alice_sent_states`
loop): basis 0 ↦ `'H'`, basis 1 ↦ `'+'`. -/
def b92_state_label (b : ℕ) : Char := if b = 0 then 'H' else '+'

/-- `b92_protocol_user_input_bases_bits_bob` after the interactive input
phase.  The quantum channel (`measure_b92`, a Qiskit simulation) is an
oracle argument mapping the preparation instructions and Bob's bases to
the raw outcome characters.  An encoding failure is caught (the source's
`try`/`except`) and turns into the `("", "")` result; an invalid basis in
the `alice_sent_states` loop escapes uncaught. -/
def b92_protocol (aliceBits : List Char) (aliceBases bobBases : List ℕ)
    (channel : List Bool → List ℕ → List Char) : Except B92Error (String × String) :=
  match alice_sent_states aliceBases with
  | Except.error e => Except.error e
  | Except.ok states =>
    match encode_b92_with_alice_basis aliceBits aliceBases with
    | Except.error _ => Except.ok ("", "")
    | Except.ok prep =>
      let meas := channel prep bobBases
      let sifted := b92_sift states bobBases meas aliceBits.length
      Except.ok (String.mk (sifted.2.map (fun i => aliceBits.getD i ' ')),
        String.mk sifted.1)

/-- Specification-side predicate: the bit/basis pair violates the B92
encoding rule (bit `'1'` with basis 0, or bit `'0'` with basis 1). -/
def b92_violation (bit : Char) (basis : ℕ) : Bool :=
  decide ((basis = 0 ∧ bit = '1') ∨ (basis = 1 ∧ bit = '0'))

/-- The fixed error raised for a given violating bit/basis pair. -/
def b92_violation_error (basis : ℕ) : B92Error :=
  if basis = 0 then B92Error.bitOneWithBasisZero else B92Error.bitZeroWithBasisOne

/-- Specification-side search for the first position whose bit/basis pair
violates the encoding rule, returning its index and the pair. -/
def b92_first_violation_go : List (Char × ℕ) → Option (ℕ × Char × ℕ)
  | [] => none
  | p :: rest =>
    if b92_violation p.1 p.2 then some (0, p)
    else (b92_first_violation_go rest).map (fun q => (q.1 + 1, q.2))

/-- First violating position over aligned bit/basis sequences. -/
def b92_first_violation (bits : List Char) (bases : List ℕ) : Option (ℕ × Char × ℕ) :=
  b92_first_violation_go (bits.zip bases)

theorem b92_first_violation_go_get {l : List (Char × ℕ)} :
    ∀ {i : ℕ} {p : Char × ℕ}, b92_first_violation_go l = some (i, p) →
      l.get? i = some p ∧ b92_violation p.1 p.2 = true := by
  induction l with
  | nil => intro i p h; cases h
  | cons q rest ih =>
    intro i p h
    rw [b92_first_violation_go] at h
    by_cases hv : b92_violation q.1 q.2 = true
    · rw [if_pos hv] at h
      cases h
      exact ⟨rfl, hv⟩
    · rw [if_neg hv] at h
      cases hrest : b92_first_violation_go rest with
      | none => rw [hrest] at h; cases h
      | some w =>
        rw [hrest, Option.map_some'] at h
        cases h
        exact ih hrest

theorem encode_b92_go_ok_valid {l : List (Char × ℕ)} {r : List Bool}
    (h : encode_b92_go l = Except.ok r) :
    ∀ p ∈ l, (p.2 = 0 ∧ p.1 ≠ '1') ∨ (p.2 = 1 ∧ p.1 ≠ '0') := by
  induction l generalizing r with
  | nil => intro p hp; cases hp
  | cons q rest ih =>
    intro p hp
    obtain ⟨bit, basis⟩ := q
    rw [encode_b92_go] at h
    rcases List.mem_cons.mp hp with hp | hp
    · subst hp
      by_cases h0 : basis = 0
      · rw [if_pos h0] at h
        by_cases h1 : bit = '1'
        · rw [if_pos h1] at h; cases h
        · exact Or.inl ⟨h0, h1⟩
      · rw [if_neg h0] at h
        by_cases h2 : basis = 1
        · rw [if_pos h2] at h
          by_cases h3 : bit = '0'
          · rw [if_pos h3] at h; cases h
          · exact Or.inr ⟨h2, h3⟩
        · rw [if_neg h2] at h; cases h
    · by_cases h0 : basis = 0
      · rw [if_pos h0] at h
        by_cases h1 : bit = '1'
        · rw [if_pos h1] at h; cases h
        · rw [if_neg h1] at h
          cases he : encode_b92_go rest with
          | ok r2 => exact ih he p hp
          | error e => rw [he] at h; cases h
      · rw [if_neg h0] at h
        by_cases h2 : basis = 1
        · rw [if_pos h2] at h
          by_cases h3 : bit = '0'
          · rw [if_pos h3] at h; cases h
          · rw [if_neg h3] at h
            cases he : encode_b92_go rest with
            | ok r2 => exact ih he p hp
            | error e => rw [he] at h; cases h
        · rw [if_neg h2] at h; cases h

theorem alice_sent_states_of_valid (bases : List ℕ)
    (hval : ∀ b ∈ bases, b = 0 ∨ b = 1) :
    alice_sent_states bases = Except.ok (bases.map b92_state_label) := by
  induction bases with
  | nil => rfl
  | cons b rest ih =>
    have hrest := ih (fun x hx => hval x (List.mem_cons_of_mem _ hx))
    rcases hval b (List.mem_cons_self _ _) with hb | hb
    · subst hb
      simp [alice_sent_states, hrest, b92_state_label]
    · subst hb
      simp [alice_sent_states, hrest, b92_state_label]

theorem encode_b92_go_spec (l : List (Char × ℕ))
    (hval : ∀ p ∈ l, p.2 = 0 ∨ p.2 = 1) :
    (∀ i p, b92_first_violation_go l = some (i, p) →
      encode_b92_go l = Except.error (b92_violation_error p.2)) ∧
    (b92_first_violation_go l = none →
      ∃ r, encode_b92_go l = Except.ok r ∧ r.length = l.length) := by
  induction l with
  | nil =>
    constructor
    · intro i p h; cases h
    · intro _; exact ⟨[], rfl, rfl⟩
  | cons q rest ih =>
    obtain ⟨bit, basis⟩ := q
    have hval2 : ∀ p ∈ rest, p.2 = 0 ∨ p.2 = 1 :=
      fun p hp => hval p (List.mem_cons_of_mem _ hp)
    have ih2 := ih hval2
    by_cases hv : b92_violation bit basis = true
    · have hv2 := (decide_eq_true_eq).mp hv
      constructor
      · intro i p h
        rw [b92_first_violation_go, if_pos hv] at h
        cases h
        rw [encode_b92_go]
        rcases hv2 with ⟨h0, h1⟩ | ⟨h0, h1⟩
        · rw [if_pos h0, if_pos h1, b92_violation_error, if_pos h0]
        · have hne : basis ≠ 0 := by rw [h0]; decide
          rw [if_neg hne, if_pos h0, if_pos h1, b92_violation_error, if_neg hne]
      · intro h
        rw [b92_first_violation_go, if_pos hv] at h
        cases h
    · have hv2 : ¬ ((basis = 0 ∧ bit = '1') ∨ (basis = 1 ∧ bit = '0')) := by
        intro hc
        exact hv ((decide_eq_true_eq).mpr hc)
      have hstep : ∀ e : Except B92Error (List Bool),
          encode_b92_go rest = e →
          encode_b92_go ((bit, basis) :: rest) =
            (match e with
             | Except.ok r => Except.ok ((if basis = 0 then false else true) :: r)
             | Except.error er => Except.error er) := by
        intro e he
        rw [encode_b92_go]
        rcases hval (bit, basis) (List.mem_cons_self _ _) with h0 | h0
        · have h0g : basis = 0 := h0
          have h1 : bit ≠ '1' := fun hc => hv2 (Or.inl ⟨h0g, hc⟩)
          rw [if_pos h0g, if_neg h1, he, if_pos h0g]
        · have h0g : basis = 1 := h0
          have hne : basis ≠ 0 := by rw [h0g]; decide
          have h1 : bit ≠ '0' := fun hc => hv2 (Or.inr ⟨h0g, hc⟩)
          rw [if_neg hne, if_pos h0g, if_neg h1, he, if_neg hne]
      constructor
      · intro i p h
        rw [b92_first_violation_go, if_neg hv] at h
        cases hrest : b92_first_violation_go rest with
        | none => rw [hrest] at h; cases h
        | some w =>
          rw [hrest, Option.map_some'] at h
          cases h
          have herr := ih2.1 w.1 w.2 (by rw [hrest])
          rw [hstep _ herr]
      · intro h
        rw [b92_first_violation_go, if_neg hv] at h
        cases hrest : b92_first_violation_go rest with
        | some w => rw [hrest, Option.map_some'] at h; cases h
        | none =>
          obtain ⟨r, hr, hrl⟩ := ih2.2 hrest
          exact ⟨(if basis = 0 then false else true) :: r, by rw [hstep _ hr],
            by simp [hrl]⟩

/-- **C5 counterexample.** The encoding error does not identify the
offending index: the violating inputs `bits=['1'], bases=[0]` (first
violation at index 0) and `bits=['0','1'], bases=[0,0]` (first violation
at index 1) produce the *same* error value, the fixed message
`"Inconsistent input: bit '1' with basis '0' in B92"`, so the error
cannot identify which position was at fault. -/
theorem b92_encode_error_lacks_index :
    encode_b92_with_alice_basis ['1'] [0] =
      Except.error B92Error.bitOneWithBasisZero ∧
    encode_b92_with_alice_basis ['0', '1'] [0, 0] =
      Except.error B92Error.bitOneWithBasisZero ∧
    b92_first_violation ['1'] [0] = some (0, '1', 0) ∧
    b92_first_violation ['0', '1'] [0, 0] = some (1, '1', 0) :=
  ⟨rfl, rfl, rfl, rfl⟩

/-- **C5 (amended).** For every aligned bit/basis input over valid bases
containing a violating position, `encode` fails at the first such position
with the fixed `EncodingInconsistency` error naming the violating
bit/basis pairing (but not the index), and no channel interaction takes
place (the protocol returns `("", "")` for every channel); for every valid
input of length `n` it never raises and produces exactly `n` preparation
instructions. -/
theorem b92_encode_violation_behavior (bits : List Char) (bases : List ℕ)
    (hval : ∀ b ∈ bases, b = 0 ∨ b = 1) (hlen : bases.length = bits.length) :
    (∀ i bit basis, b92_first_violation bits bases = some (i, bit, basis) →
      encode_b92_with_alice_basis bits bases =
        Except.error (b92_violation_error basis) ∧
      ∀ bobBases channel,
        b92_protocol bits bases bobBases channel = Except.ok ("", "")) ∧
    (b92_first_violation bits bases = none →
      ∃ prep, encode_b92_with_alice_basis bits bases = Except.ok prep ∧
        prep.length = bits.length) := by
  have hvalzip : ∀ p ∈ bits.zip bases, p.2 = 0 ∨ p.2 = 1 :=
    fun p hp => hval p.2 (List.of_mem_zip hp).2
  have spec := encode_b92_go_spec (bits.zip bases) hvalzip
  constructor
  · intro i bit basis h
    have herr : encode_b92_with_alice_basis bits bases =
        Except.error (b92_violation_error basis) := spec.1 i (bit, basis) h
    refine ⟨herr, ?_⟩
    intro bobBases channel
    simp only [b92_protocol, alice_sent_states_of_valid bases hval, herr]
  · intro h
    obtain ⟨r, hr, hrl⟩ := spec.2 h
    exact ⟨r, hr, by rw [hrl, List.length_zip, hlen, Nat.min_self]⟩

/-- **C5 witness.** Concrete run of the amended claim: bit `'1'` with
basis 0 aborts encoding and the protocol returns empty keys without
consulting the channel. -/
theorem b92_encode_violation_behavior_witness :
    b92_protocol ['1'] [0] [0] (fun _ _ => []) = Except.ok ("", "") :=
  ((b92_encode_violation_behavior ['1'] [0] (by decide) rfl).1 0 '1' 0 rfl).2
    [0] (fun _ _ => [])

/-- **C9.** Whenever B92 encoding validation succeeds (on binary bits with
aligned bases), the sender's sifted key equals the receiver's derived key
position for position, for *every* possible measurement-outcome string:
the pairing rule forces Alice's bit at each conclusive index to coincide
with Bob's derived bit, so the protocol returns a pair of identical
keys by construction. -/
theorem b92_sifted_keys_agree (bits : List Char) (bases bobBases : List ℕ)
    (prep : List Bool) (channel : List Bool → List ℕ → List Char)
    (henc : encode_b92_with_alice_basis bits bases = Except.ok prep)
    (hbin : ∀ c ∈ bits, c = '0' ∨ c = '1')
    (hlen : bases.length = bits.length) :
    ∃ k, b92_protocol bits bases bobBases channel = Except.ok (k, k) := by
  have hpairs := encode_b92_go_ok_valid (l := bits.zip bases) henc
  have hmemzip : ∀ i (hib : i < bits.length) (hia : i < bases.length),
      (bits.get ⟨i, hib⟩, bases.get ⟨i, hia⟩) ∈ bits.zip bases := by
    intro i hib hia
    have hiz : i < (bits.zip bases).length := by
      rw [List.length_zip]
      exact lt_min hib hia
    have hz : (bits.zip bases).get ⟨i, hiz⟩ =
        (bits.get ⟨i, hib⟩, bases.get ⟨i, hia⟩) := List.getElem_zip
    exact hz ▸ List.get_mem (bits.zip bases) i hiz
  have hval : ∀ b ∈ bases, b = 0 ∨ b = 1 := by
    intro b hb
    obtain ⟨n, hbi⟩ := List.mem_iff_get.mp hb
    have hib : (n : ℕ) < bits.length := by rw [← hlen]; exact n.isLt
    rcases hpairs _ (hmemzip n hib n.isLt) with ⟨h0, _⟩ | ⟨h0, _⟩
    · left
      rw [← hbi]
      exact h0
    · right
      rw [← hbi]
      exact h0
  have hstates := alice_sent_states_of_valid bases hval
  have hpos : ∀ i, i < bits.length →
      (bases.getD i 2 = 0 ∧ bits.getD i ' ' ≠ '1') ∨
      (bases.getD i 2 = 1 ∧ bits.getD i ' ' ≠ '0') := by
    intro i hib
    have hia : i < bases.length := by rw [hlen]; exact hib
    have e1 : bits.getD i ' ' = bits.get ⟨i, hib⟩ := List.getD_eq_getElem _ _ hib
    have e2 : bases.getD i 2 = bases.get ⟨i, hia⟩ := List.getD_eq_getElem _ _ hia
    rw [e1, e2]
    exact hpairs _ (hmemzip i hib hia)
  have hstate : ∀ i, i < bits.length →
      (bases.map b92_state_label).getD i ' ' = b92_state_label (bases.getD i 2) := by
    intro i hib
    have hia : i < bases.length := by rw [hlen]; exact hib
    have him : i < (bases.map b92_state_label).length := by
      rw [List.length_map]; exact hia
    rw [List.getD_eq_getElem _ _ him, List.getElem_map,
      List.getD_eq_getElem _ _ hia]
  have hbinD : ∀ i, i < bits.length →
      bits.getD i ' ' = '0' ∨ bits.getD i ' ' = '1' := by
    intro i hib
    rw [List.getD_eq_getElem _ _ hib]
    exact hbin _ (List.getElem_mem hib)
  simp only [b92_protocol, hstates, henc, b92_sift,
    b92_sift_go_eq (bases.map b92_state_label) bobBases (channel prep bobBases)
      (List.range bits.length)]
  have hmaps :
      ((List.range bits.length).filter
          (b92_conclusive (bases.map b92_state_label) bobBases
            (channel prep bobBases))).map (fun i => bits.getD i ' ') =
      ((List.range bits.length).filter
          (b92_conclusive (bases.map b92_state_label) bobBases
            (channel prep bobBases))).map
        (b92_keybit (bases.map b92_state_label)) := by
    apply List.map_congr_left
    intro i hi
    obtain ⟨hir, hic⟩ := List.mem_filter.mp hi
    have hib : i < bits.length := List.mem_range.mp hir
    rcases decide_eq_true_eq.mp hic with ⟨hH, _, _⟩ | ⟨hP, _, _⟩
    · have hb0 : bases.getD i 2 = 0 := by
        by_contra hb
        rw [hstate i hib, b92_state_label, if_neg hb] at hH
        exact absurd hH (by decide)
      have hbit : bits.getD i ' ' = '0' := by
        rcases hpos i hib with ⟨_, hne⟩ | ⟨h1, _⟩
        · rcases hbinD i hib with h | h
          · exact h
          · exact absurd h hne
        · rw [hb0] at h1; cases h1
      rw [hbit, b92_keybit, if_pos hH]
    · have hb1 : bases.getD i 2 = 1 := by
        by_cases hb : bases.getD i 2 = 0
        · rw [hstate i hib, b92_state_label, if_pos hb] at hP
          exact absurd hP (by decide)
        · rcases hpos i hib with ⟨h0, _⟩ | ⟨h1, _⟩
          · exact absurd h0 hb
          · exact h1
      have hbit : bits.getD i ' ' = '1' := by
        rcases hpos i hib with ⟨h0, _⟩ | ⟨_, hne⟩
        · rw [hb1] at h0; cases h0
        · rcases hbinD i hib with h | h
          · exact absurd h hne
          · exact h
      have hHn : ¬ (bases.map b92_state_label).getD i ' ' = 'H' := by
        rw [hP]; decide
      rw [hbit, b92_keybit, if_neg hHn]
  rw [hmaps]
  exact ⟨_, rfl⟩

/-- **C9 witness.** The spec scenario: bits `"01"`, bases `[0,1]`, Bob's
bases `[1,0]`, raw outcomes `"11"` — both sifted keys agree. -/
theorem b92_sifted_keys_agree_witness :
    ∃ k, b92_protocol ['0', '1'] [0, 1] [1, 0] (fun _ _ => ['1', '1']) =
      Except.ok (k, k) :=
  b92_sifted_keys_agree ['0', '1'] [0, 1] [1, 0] [false, true]
    (fun _ _ => ['1', '1']) rfl (by decide) rfl

/-! ## BB84 engine (`bb84.py`) -/

/-- The noise loop of `Ron_measurement_multi_qubit_with_noise`: one
independent `random.random()` draw per measured bit, and the bit is
flipped (`1 - bit`) exactly when the draw is below `noise_probability`.
The randomness source is the `draws` stream (draw `i` is the one consumed
for position `i`); `random.random()` always lies in `[0, 1)` but the
probability argument is whatever the caller passes — the source performs
no validation on it. -/
def noisy_results (p : ℚ) (draws : ℕ → ℚ) (bits : List ℤ) : List ℤ :=
  (List.range bits.length).map
    (fun i => if draws i < p then 1 - bits.getD i 0 else bits.getD i 0)

theorem noisy_results_length (p : ℚ) (draws : ℕ → ℚ) (bits : List ℤ) :
    (noisy_results p draws bits).length = bits.length := by
  rw [noisy_results, List.length_map, List.length_range]

theorem noisy_results_getD (p : ℚ) (draws : ℕ → ℚ) (bits : List ℤ) (i : ℕ)
    (hi : i < bits.length) :
    (noisy_results p draws bits).getD i 0 =
      if draws i < p then 1 - bits.getD i 0 else bits.getD i 0 := by
  have hii : i < (noisy_results p draws bits).length := by
    rw [noisy_results_length]; exact hi
  rw [List.getD_eq_getElem _ _ hii]
  simp only [noisy_results, List.getElem_map, List.getElem_range]

theorem noisy_results_all_flip (p : ℚ) (draws : ℕ → ℚ) (bits : List ℤ)
    (hp : 1 ≤ p) (hd : ∀ i, draws i < 1) :
    noisy_results p draws bits = bits.map (fun b => 1 - b) := by
  apply List.ext_getElem
  · rw [noisy_results_length, List.length_map]
  · intro i h1 h2
    have hi : i < bits.length := by rw [noisy_results_length] at h1; exact h1
    simp only [noisy_results, List.getElem_map, List.getElem_range,
      List.getD_eq_getElem _ _ hi]
    rw [if_pos (lt_of_lt_of_le (hd i) hp)]

theorem noisy_results_no_flip (p : ℚ) (draws : ℕ → ℚ) (bits : List ℤ)
    (hp : p ≤ 0) (hd : ∀ i, 0 ≤ draws i) :
    noisy_results p draws bits = bits := by
  apply List.ext_getElem
  · rw [noisy_results_length]
  · intro i h1 h2
    have hi : i < bits.length := by rw [noisy_results_length] at h1; exact h1
    simp only [noisy_results, List.getElem_map, List.getElem_range,
      List.getD_eq_getElem _ _ hi]
    rw [if_neg (not_lt.mpr (le_trans hp (hd i)))]

theorem noise_flip_measure (p : ℚ) (_hp0 : 0 ≤ p) (hp1 : p ≤ 1) :
    MeasureTheory.volume {u : ℝ | 0 ≤ u ∧ u < 1 ∧ u < (p : ℝ)} =
      ENNReal.ofReal (p : ℝ) := by
  have hset : {u : ℝ | 0 ≤ u ∧ u < 1 ∧ u < (p : ℝ)} = Set.Ico (0 : ℝ) (p : ℝ) := by
    ext u
    simp only [Set.mem_setOf_eq, Set.mem_Ico]
    constructor
    · rintro ⟨h0, _, h2⟩; exact ⟨h0, h2⟩
    · rintro ⟨h0, h2⟩
      refine ⟨h0, lt_of_lt_of_le h2 ?_, h2⟩
      exact_mod_cast hp1
  rw [hset, Real.volume_Ico, sub_zero]

/-- `basis_reconciliation` from `bb84.py`, one loop index at a time: for
each `i` the source reads `Sam_bases[i]` and `Ron_bases[i]`, and when they
are equal appends `Sam_bits[i]` and `Ron_results[i]` to the two shared
keys.  A Python `IndexError` (out-of-range access) is modelled as `none`. -/
def basis_reconciliation_go (samBases ronBases samBits ronResults : List ℤ) :
    List ℕ → Option (List ℤ × List ℤ)
  | [] => some ([], [])
  | i :: rest =>
    match samBases[i]?, ronBases[i]? with
    | some sb, some rb =>
      if sb = rb then
        match samBits[i]?, ronResults[i]?,
            basis_reconciliation_go samBases ronBases samBits ronResults rest with
        | some sv, some rv, some q => some (sv :: q.1, rv :: q.2)
        | _, _, _ => none
      else basis_reconciliation_go samBases ronBases samBits ronResults rest
    | _, _ => none

/-- `basis_reconciliation(Sam_bases, Ron_bases, Sam_bits, Ron_results)`:
the loop runs over `range(len(Sam_bases))`. -/
def basis_reconciliation (samBases ronBases samBits ronResults : List ℤ) :
    Option (List ℤ × List ℤ) :=
  basis_reconciliation_go samBases ronBases samBits ronResults
    (List.range samBases.length)

/-- Specification-side predicate: the two parties chose the same basis at
position `i`. -/
def bases_match (samBases ronBases : List ℤ) (i : ℕ) : Bool :=
  decide (samBases.getD i 0 = ronBases.getD i 0)

theorem basis_reconciliation_go_eq (samBases ronBases samBits ronResults : List ℤ)
    (l : List ℕ)
    (hb : ∀ i ∈ l, i < samBases.length ∧ i < ronBases.length ∧
      i < samBits.length ∧ i < ronResults.length) :
    basis_reconciliation_go samBases ronBases samBits ronResults l =
      some ((l.filter (bases_match samBases ronBases)).map (fun i => samBits.getD i 0),
        (l.filter (bases_match samBases ronBases)).map (fun i => ronResults.getD i 0)) := by
  induction l with
  | nil => rfl
  | cons i rest ih =>
    obtain ⟨h1, h2, h3, h4⟩ := hb i (List.mem_cons_self _ _)
    have ih2 := ih (fun j hj => hb j (List.mem_cons_of_mem _ hj))
    have e1 : samBases[i]? = some (samBases.getD i 0) := by
      rw [List.getElem?_eq_getElem h1, List.getD_eq_getElem _ _ h1]
    have e2 : ronBases[i]? = some (ronBases.getD i 0) := by
      rw [List.getElem?_eq_getElem h2, List.getD_eq_getElem _ _ h2]
    have e3 : samBits[i]? = some (samBits.getD i 0) := by
      rw [List.getElem?_eq_getElem h3, List.getD_eq_getElem _ _ h3]
    have e4 : ronResults[i]? = some (ronResults.getD i 0) := by
      rw [List.getElem?_eq_getElem h4, List.getD_eq_getElem _ _ h4]
    by_cases hm : samBases.getD i 0 = ronBases.getD i 0
    · have ht : bases_match samBases ronBases i = true := by
        rw [bases_match, decide_eq_true_eq]; exact hm
      simp only [basis_reconciliation_go, e1, e2, if_pos hm, e3, e4, ih2,
        List.filter_cons, ht, if_true, List.map_cons]
    · have hf : bases_match samBases ronBases i = false := by
        rw [bases_match]; exact decide_eq_false hm
      simp only [basis_reconciliation_go, e1, e2, if_neg hm, ih2,
        List.filter_cons, hf, Bool.false_eq_true, if_false]

theorem basis_reconciliation_go_none (samBases ronBases samBits ronResults : List ℤ)
    (l : List ℕ) (i : ℕ) (hi : i ∈ l) (h : ronBases.length ≤ i) :
    basis_reconciliation_go samBases ronBases samBits ronResults l = none := by
  induction l with
  | nil => cases hi
  | cons j rest ih =>
    cases e1 : samBases[j]? with
    | none => simp only [basis_reconciliation_go, e1]
    | some sb =>
      cases e2 : ronBases[j]? with
      | none => simp only [basis_reconciliation_go, e1, e2]
      | some rb =>
        have hj : j ≠ i := by
          intro hji
          subst hji
          rw [List.getElem?_eq_none h] at e2
          cases e2
        have hi2 : i ∈ rest := by
          rcases List.mem_cons.mp hi with h' | h'
          · exact absurd h'.symm hj
          · exact h'
        have ihr := ih hi2
        simp only [basis_reconciliation_go, e1, e2]
        by_cases hm : sb = rb
        · rw [if_pos hm, ihr]
          cases samBits[j]? <;> cases ronResults[j]? <;> rfl
        · rw [if_neg hm]
          exact ihr

/-- **C2.** Reconciliation on four equal-length sequences returns, in
original index order, the subsequences of `sender_values`/`receiver_values`
at exactly the positions where the two basis sequences agree; the two
outputs have equal length.  (The embedding is a pure function, so
determinism and absence of side effects hold by construction.) -/
theorem basis_reconciliation_spec (samBases ronBases samBits ronResults : List ℤ)
    (h2 : ronBases.length = samBases.length)
    (h3 : samBits.length = samBases.length)
    (h4 : ronResults.length = samBases.length) :
    ∃ ks kr,
      basis_reconciliation samBases ronBases samBits ronResults = some (ks, kr) ∧
      ks = ((List.range samBases.length).filter
        (bases_match samBases ronBases)).map (fun i => samBits.getD i 0) ∧
      kr = ((List.range samBases.length).filter
        (bases_match samBases ronBases)).map (fun i => ronResults.getD i 0) ∧
      ks.length = kr.length := by
  have h := basis_reconciliation_go_eq samBases ronBases samBits ronResults
    (List.range samBases.length)
    (by
      intro i hi
      have := List.mem_range.mp hi
      omega)
  exact ⟨_, _, h, rfl, rfl, by rw [List.length_map, List.length_map]⟩

/-- **C2 witness.** The spec scenario: bases `[0,1,0,1]` vs `[0,0,0,1]`,
values `[1,0,1,1]` and `[1,1,1,1]` sift to `([1,1,1], [1,1,1])`. -/
theorem basis_reconciliation_spec_witness :
    basis_reconciliation [0, 1, 0, 1] [0, 0, 0, 1] [1, 0, 1, 1] [1, 1, 1, 1] =
      some ([1, 1, 1], [1, 1, 1]) := by
  obtain ⟨ks, kr, h, hks, hkr, _⟩ :=
    basis_reconciliation_spec [0, 1, 0, 1] [0, 0, 0, 1] [1, 0, 1, 1] [1, 1, 1, 1]
      rfl rfl rfl
  rw [h, hks, hkr]
  rfl

/-- **C6 counterexample.** `basis_reconciliation` contains no length
check: on misaligned input (`Sam_bases` of length 1 against the other
sequences of length 2) it silently produces a result instead of failing. -/
theorem basis_reconciliation_no_length_check :
    (¬ ([0] : List ℤ).length = ([0, 1] : List ℤ).length) ∧
    basis_reconciliation [0] [0, 1] [5] [7, 9] = some ([5], [7]) :=
  ⟨by decide, rfl⟩

/-- **C6 (amended).** Reconciliation performs no length validation: it
iterates over the indices of `sender_bases` only, so whenever the other
three sequences have length at least `sender_bases.length` — equal or not —
it produces a result over those indices (longer tails are silently
ignored); it fails only by an out-of-range access, e.g. whenever
`receiver_bases` is shorter than `sender_bases` (a Python `IndexError`,
not a dedicated `LengthMismatch` error). -/
theorem basis_reconciliation_no_validation (samBases ronBases samBits ronResults : List ℤ) :
    (samBases.length ≤ ronBases.length → samBases.length ≤ samBits.length →
      samBases.length ≤ ronResults.length →
      ∃ r, basis_reconciliation samBases ronBases samBits ronResults = some r) ∧
    (ronBases.length < samBases.length →
      basis_reconciliation samBases ronBases samBits ronResults = none) := by
  constructor
  · intro hb hv hr
    refine ⟨_, basis_reconciliation_go_eq samBases ronBases samBits ronResults
      (List.range samBases.length) ?_⟩
    intro i hi
    have := List.mem_range.mp hi
    omega
  · intro h
    exact basis_reconciliation_go_none samBases ronBases samBits ronResults
      (List.range samBases.length) ronBases.length (List.mem_range.mpr h) le_rfl

/-- **C6 amended witness.** Concrete misaligned inputs: longer companions
are truncated and produce a result; a shorter `receiver_bases` fails. -/
theorem basis_reconciliation_no_validation_witness :
    (∃ r, basis_reconciliation [0, 2] [0, 1, 1] [3, 4, 5] [6, 7, 8] = some r) ∧
    basis_reconciliation [0, 2] [0] [3, 4] [6, 7] = none :=
  ⟨(basis_reconciliation_no_validation [0, 2] [0, 1, 1] [3, 4, 5] [6, 7, 8]).1
      (by decide) (by decide) (by decide),
    (basis_reconciliation_no_validation [0, 2] [0] [3, 4] [6, 7]).2 (by decide)⟩

/-- **C7 counterexample.** A noise probability outside `[0, 1]` is not
reported as a configuration error: with probability 2 the noise step
happily produces a normal result, and it behaves exactly like probability
1 (silent clamping), contradicting "reported before any run begins, never
silently clamps". -/
theorem noise_probability_not_validated :
    noisy_results 2 (fun _ => 1 / 2) [0] = [1] ∧
    noisy_results 2 (fun _ => 1 / 2) [0] = noisy_results 1 (fun _ => 1 / 2) [0] := by
  constructor <;> norm_num [noisy_results]

/-- **C7 (amended).** No validation of the noise probability is performed:
values outside `[0, 1]` are accepted silently and behave as if clamped
(`p ≥ 1` flips every outcome whose draw lies in `[0, 1)`, `p ≤ 0` leaves
every outcome unchanged); within `[0, 1]`, outcome `i` is flipped exactly
when the `i`-th independent per-call draw is below `p`, an event of
measure exactly `p` for a uniform draw on `[0, 1)`. -/
theorem noise_model_behavior (p : ℚ) (draws : ℕ → ℚ) (bits : List ℤ) :
    (noisy_results p draws bits).length = bits.length ∧
    (∀ i, i < bits.length → (noisy_results p draws bits).getD i 0 =
      if draws i < p then 1 - bits.getD i 0 else bits.getD i 0) ∧
    (1 ≤ p → (∀ i, draws i < 1) →
      noisy_results p draws bits = bits.map (fun b => 1 - b)) ∧
    (p ≤ 0 → (∀ i, 0 ≤ draws i) → noisy_results p draws bits = bits) ∧
    (0 ≤ p → p ≤ 1 →
      MeasureTheory.volume {u : ℝ | 0 ≤ u ∧ u < 1 ∧ u < (p : ℝ)} =
        ENNReal.ofReal (p : ℝ)) :=
  ⟨noisy_results_length p draws bits,
    noisy_results_getD p draws bits,
    noisy_results_all_flip p draws bits,
    noisy_results_no_flip p draws bits,
    noise_flip_measure p⟩

/-- **C7 witness.** With probability 0 and draws of `1/2`, nothing flips. -/
theorem noise_model_behavior_witness :
    noisy_results 0 (fun _ => 1 / 2) [0, 1] = [0, 1] :=
  (noise_model_behavior 0 (fun _ => 1 / 2) [0, 1]).2.2.2.1 le_rfl
    (fun _ => by norm_num)

/-- **C8.** BB84 with noise probability 1: provided the channel outcome at
every basis-matched position equals the sender's bit (the quantum-channel
contract for matching bases) and every draw lies in `[0, 1)`, every
position retained by reconciliation carries a receiver key bit equal to
the complement `1 - b` of the sender's bit `b`; and with noise probability
0, the noise step leaves every measured bit unchanged. -/
theorem bb84_noise_extremes (samBases ronBases samBits measured : List ℤ)
    (draws : ℕ → ℚ) (n : ℕ)
    (hsB : samBases.length = n) (hrB : ronBases.length = n)
    (hsV : samBits.length = n) (hm : measured.length = n)
    (hdraws : ∀ i, 0 ≤ draws i ∧ draws i < 1)
    (hchan : ∀ i, i < n → samBases.getD i 0 = ronBases.getD i 0 →
      measured.getD i 0 = samBits.getD i 0) :
    (∃ ks kr, basis_reconciliation samBases ronBases samBits
        (noisy_results 1 draws measured) = some (ks, kr) ∧
      kr = ks.map (fun b => 1 - b)) ∧
    noisy_results 0 draws measured = measured := by
  have hflip := noisy_results_all_flip 1 draws measured le_rfl
    (fun i => (hdraws i).2)
  have hnl : (noisy_results 1 draws measured).length = n := by
    rw [noisy_results_length, hm]
  have hgo := basis_reconciliation_go_eq samBases ronBases samBits
    (noisy_results 1 draws measured) (List.range samBases.length)
    (by
      intro i hi
      have := List.mem_range.mp hi
      omega)
  refine ⟨⟨_, _, hgo, ?_⟩,
    noisy_results_no_flip 0 draws measured le_rfl (fun i => (hdraws i).1)⟩
  rw [List.map_map]
  apply List.map_congr_left
  intro i hi
  obtain ⟨hir, hmt⟩ := List.mem_filter.mp hi
  have hin : i < n := by
    have := List.mem_range.mp hir
    omega
  have hmatch : samBases.getD i 0 = ronBases.getD i 0 := by
    rw [bases_match, decide_eq_true_eq] at hmt
    exact hmt
  have him : i < measured.length := by omega
  show (noisy_results 1 draws measured).getD i 0 = 1 - samBits.getD i 0
  have hmm : i < (measured.map (fun b => 1 - b)).length := by
    rw [List.length_map]
    exact him
  rw [hflip, List.getD_eq_getElem _ _ hmm, List.getElem_map,
    ← List.getD_eq_getElem measured 0 him, hchan i hin hmatch]

/-- **C8 witness.** One position, matching bases, sender bit 1, channel
returns 1, draw `1/2`: with probability 1 the receiver's sifted bit is
`1 - 1 = 0`, and with probability 0 the measured bits are untouched. -/
theorem bb84_noise_extremes_witness :
    (∃ ks kr, basis_reconciliation [0] [0] [1]
        (noisy_results 1 (fun _ => 1 / 2) [1]) = some (ks, kr) ∧
      kr = ks.map (fun b => 1 - b)) ∧
    noisy_results 0 (fun _ => 1 / 2) [1] = [1] :=
  bb84_noise_extremes [0] [0] [1] [1] (fun _ => 1 / 2) 1 rfl rfl rfl rfl
    (fun _ => ⟨by norm_num, by norm_num⟩) (fun _ _ _ => rfl)

/-! ## E91 engine (`e91.py`) -/

/-- One Bell test sample, exactly as `get_bell_test_input_from_user`
collects it: `((alice_basis_idx, alice_result), (bob_basis_idx, bob_result))`
with results as the characters `'0'`/`'1'`. -/
abbrev BellSample := (ℕ × Char) × (ℕ × Char)

/-- `a_val = 1 if alice_result == '0' else -1` from `evaluate_bell_statistic`. -/
def a_val (c : Char) : ℤ := if c = '0' then 1 else -1

/-- `b_val = 1 if bob_result == '0' else -1` from `evaluate_bell_statistic`. -/
def b_val (c : Char) : ℤ := if c = '0' then 1 else -1

/-- The six-way disjunction of `evaluate_bell_statistic` selecting which
(basis-index, basis-index) combinations contribute to the CHSH-like
parameter. -/
def bell_included (a b : ℕ) : Bool :=
  decide ((a = 0 ∧ b = 1) ∨ (a = 0 ∧ b = 2) ∨ (a = 1 ∧ b = 2) ∨
    (a = 1 ∧ b = 0) ∨ (a = 2 ∧ b = 0) ∨ (a = 2 ∧ b = 1))

/-- The `correlations` list accumulated by the loop of
`evaluate_bell_statistic`, in sample order. -/
def bell_correlations : List BellSample → List ℤ
  | [] => []
  | s :: rest =>
    if bell_included s.1.1 s.2.1
    then a_val s.1.2 * b_val s.2.2 :: bell_correlations rest
    else bell_correlations rest

/-- `evaluate_bell_statistic(bell_data)`: `np.mean(correlations) * sqrt(2)`
when any correlation was collected, else 0.  Modelled over the reals; the
source computes in floating point, but every correlation product is ±1, so
the mean lies in [-1, 1] exactly and the downstream bound test is
unaffected. -/
noncomputable def evaluate_bell_statistic (data : List BellSample) : ℝ :=
  if bell_correlations data ≠ []
  then ((bell_correlations data).sum : ℝ) /
      ((bell_correlations data).length : ℝ) * Real.sqrt 2
  else 0

/-- Specification-side contribution list: a sample contributes the product
of its two mapped outcome values exactly when its ordered basis-index pair
is off-diagonal over `{0, 1, 2}` (all pairs except `(0,0)`, `(1,1)`,
`(2,2)`). -/
def bell_contributions (data : List BellSample) : List ℤ :=
  data.filterMap (fun s =>
    if s.1.1 < 3 ∧ s.2.1 < 3 ∧ s.1.1 ≠ s.2.1
    then some (a_val s.1.2 * b_val s.2.2) else none)

/-- **C3.** E91 estimator: a sample contributes the product of its mapped
values (`'0'` ↦ +1, `'1'` ↦ −1) exactly when its ordered basis-index pair
is one of the six off-diagonal pairs over `{0,1,2}`; the statistic is the
mean of the contributed products times √2, and 0 when nothing
contributes. -/
theorem bell_statistic_characterization (data : List BellSample) :
    bell_correlations data = bell_contributions data ∧
    evaluate_bell_statistic data =
      (if bell_contributions data = [] then 0
       else ((bell_contributions data).sum : ℝ) /
         ((bell_contributions data).length : ℝ) * Real.sqrt 2) := by
  have hinc : ∀ a b : ℕ, bell_included a b = true ↔ (a < 3 ∧ b < 3 ∧ a ≠ b) := by
    intro a b
    rw [bell_included, decide_eq_true_eq]
    omega
  have hc : bell_correlations data = bell_contributions data := by
    induction data with
    | nil => rfl
    | cons s rest ih =>
      by_cases h : s.1.1 < 3 ∧ s.2.1 < 3 ∧ s.1.1 ≠ s.2.1
      · simp only [bell_correlations, if_pos ((hinc _ _).mpr h), ih,
          bell_contributions, List.filterMap_cons, if_pos h]
      · simp only [bell_correlations, if_neg (fun hb => h ((hinc _ _).mp hb)), ih,
          bell_contributions, List.filterMap_cons, if_neg h]
  refine ⟨hc, ?_⟩
  simp only [evaluate_bell_statistic, hc, ne_eq, ite_not]

/-- The `hypothetical_key` drawn by repeated `random.randint(0, 1)` when
the Bell bound is exceeded: `⌊n/2⌋` draws from the stream `rand`. -/
def hypothetical_key (n : ℕ) (rand : ℕ → ℕ) : List ℕ :=
  (List.range (n / 2)).map rand

/-- `e91_protocol_qiskit_user_input` after input collection: `data` holds
the user-entered Bell test samples (the input loop guarantees at least
one), `rand` the `random.randint(0, 1)` stream.  Empty data returns empty
keys; a Bell statistic whose absolute value exceeds the fixed classical
bound 2.0 makes the protocol hand the *same* hypothetical key to both
parties; otherwise both keys are empty. -/
noncomputable def e91_protocol (data : List BellSample) (rand : ℕ → ℕ) :
    List ℕ × List ℕ :=
  if data = [] then ([], [])
  else if |evaluate_bell_statistic data| > 2
  then (hypothetical_key data.length rand, hypothetical_key data.length rand)
  else ([], [])

/-- **C4.** E91 decision rule: for every non-empty sample list, if the
absolute Bell statistic exceeds the fixed bound 2.0 the protocol returns
keys of length `⌊n/2⌋` to both parties; otherwise two empty keys. -/
theorem e91_decision_rule (data : List BellSample) (rand : ℕ → ℕ)
    (h : data ≠ []) :
    (|evaluate_bell_statistic data| > 2 →
      e91_protocol data rand =
        (hypothetical_key data.length rand, hypothetical_key data.length rand) ∧
      (e91_protocol data rand).1.length = data.length / 2 ∧
      (e91_protocol data rand).2.length = data.length / 2) ∧
    (¬ |evaluate_bell_statistic data| > 2 →
      e91_protocol data rand = ([], [])) := by
  constructor
  · intro hb
    have he : e91_protocol data rand =
        (hypothetical_key data.length rand, hypothetical_key data.length rand) := by
      rw [e91_protocol, if_neg h, if_pos hb]
    refine ⟨he, ?_, ?_⟩ <;>
      rw [he, hypothetical_key] <;>
      rw [List.length_map, List.length_range]
  · intro hb
    rw [e91_protocol, if_neg h, if_neg hb]

/-- **C4 witness.** A single sample with the diagonal basis pair `(0, 0)`
contributes nothing, the statistic is 0, and the protocol discards. -/
theorem e91_decision_rule_witness :
    e91_protocol [((0, '0'), (0, '0'))] (fun _ => 0) = ([], []) := by
  have hstat : evaluate_bell_statistic [((0, '0'), (0, '0'))] = 0 := by
    simp [evaluate_bell_statistic, bell_correlations, bell_included]
  exact (e91_decision_rule [((0, '0'), (0, '0'))] (fun _ => 0)
    (by simp)).2 (by rw [hstat]; norm_num)

/-- **C10.** The E91 protocol always returns two keys equal to each other;
when the bound is exceeded both parties receive the same drawn key, whose
bits depend only on the sample count, the bound-check outcome and the
randomness stream — not on the samples' outcome bits — and otherwise both
receive the empty key. -/
theorem e91_keys_identical (data data2 : List BellSample) (rand : ℕ → ℕ)
    (hlen : data.length = data2.length)
    (hgate : |evaluate_bell_statistic data| > 2 ↔
      |evaluate_bell_statistic data2| > 2) :
    (e91_protocol data rand).1 = (e91_protocol data rand).2 ∧
    (data ≠ [] → data2 ≠ [] →
      e91_protocol data rand = e91_protocol data2 rand) := by
  constructor
  · rw [e91_protocol]
    by_cases h : data = []
    · rw [if_pos h]
    · rw [if_neg h]
      by_cases hb : |evaluate_bell_statistic data| > 2
      · rw [if_pos hb]
      · rw [if_neg hb]
  · intro h1 h2
    rw [e91_protocol, e91_protocol, if_neg h1, if_neg h2, hlen]
    by_cases hb : |evaluate_bell_statistic data2| > 2
    · rw [if_pos (hgate.mpr hb), if_pos hb]
    · rw [if_neg (fun hc => hb (hgate.mp hc)), if_neg hb]

/-- **C10 witness.** Concrete instance of the key-equality guarantee. -/
theorem e91_keys_identical_witness :
    (e91_protocol [((0, '0'), (0, '0'))] (fun _ => 1)).1 =
      (e91_protocol [((0, '0'), (0, '0'))] (fun _ => 1)).2 :=
  (e91_keys_identical [((0, '0'), (0, '0'))] [((0, '0'), (0, '0'))]
    (fun _ => 1) rfl Iff.rfl).1
